import Mathlib

/-!
# Storage backends of `cslibs_clustering`

A shallow embedding of the three storage backends

* `backend/array/array.hpp`   (dense array with a validity bitmap),
* `backend/kdtree/kdtree.hpp` (adaptive binary space partitioning tree),
* `backend/simple/unordered_map.hpp` (hash map baseline),

followed by theorems about them.

Conventions of the embedding.

* An index (`index_t`, a `std::array` of `dimensions` signed integers) is a function
  `Fin n → Int`; the coordinate type is the signed 64 bit integer type. The difference
  and the sum of coordinates that `Node::split` computes are reduced to this type by
  `wrap` (two's complement wrap-around); the difference `index[i] - offset_[i]` of the
  array backend is exact.
* `std::size_t` values are natural numbers; every `std::size_t` operation is reduced
  modulo `2 ^ 64`.
* The payload operations (`create`, `merge<Strategy>`, default construction) are a
  parameter, `data_ops`.
* A member function that mutates the object returns the object after the call together
  with its result; a thrown exception or an access outside a buffer is an explicit
  `Fault`.
* The visitor of `traverse` is modelled by the list of its calls, in call order.
* A value of `std::size_t` stored into a coordinate is read as a signed 64 bit word.
* Deleted nodes are not kept: a root pointer to a deleted node is the state `dangling`.
-/

namespace cslibs_clustering

/-- Duplicate index policy: `option::MergeStrategy` of the k-d tree, named
`options::OnDuplicateIndex` in the array backend. -/
inductive MergeStrategy where
  | REPLACE
  | MERGE
  deriving DecidableEq

/-- Payload contract of a record type `D` built from arguments `A`: the default constructed
record `data_t()`, `create(args...)` and `merge<Strategy>(record, args...)`. -/
structure data_ops (D A : Type) where
  /-- Default constructed record, as in `new Node()` and `new data_t[size]`. -/
  init : D
  /-- Record built by `data_ops<data_t>::create(args...)`. -/
  create : A → D
  /-- Record left in place by `merge<Strategy>(record, args...)`. -/
  merge : MergeStrategy → D → A → D

/-- Index type: `dimensions = n` signed integer coordinates. -/
abbrev index_t (n : Nat) := Fin n → Int

/-- Coordinate `i` of an index, `index_if::access(i, index)` and `index[i]`. -/
def access {n : Nat} (i : Nat) (index : index_t n) : Int :=
  if h : i < n then index ⟨i, h⟩ else 0

/-- Reduction of an integer to the signed 64 bit coordinate type: the value a sum or a
difference of two coordinates has when it is computed in that type (two's complement
wrap-around). -/
def wrap (x : Int) : Int := (x + 2 ^ 63) % 2 ^ 64 - 2 ^ 63

/-- Counting payload: a default constructed count is 0, `create` and a `REPLACE` merge
give count 1, a `MERGE` merge adds 1. -/
def counting : data_ops Nat Unit where
  init := 0
  create := fun _ => 1
  merge := fun s d _ =>
    match s with
    | MergeStrategy.REPLACE => 1
    | MergeStrategy.MERGE => d + 1

/-! ## The k-d tree backend (`kdtree.hpp`) -/

namespace kdtree

/-- Modelled from the spec: `split_value_t` is an option declared in
`kdtree_options.hpp`, which is not among the sources. The spec asks for a type with
ordering, absolute value and division by two; it is taken to be the signed integer type of
the coordinates, so that the split value is the integer midpoint. -/
abbrev split_value_t := Int

/-- Division by `split_value_t(2)`: C++ integer division, which truncates toward zero. -/
def half (x : split_value_t) : split_value_t := Int.tdiv x 2

/-- Tree node, `KDTree::Node`. A node whose `left` and `right` are both null is a `leaf`
and holds `index` and `data`; any other node is `inner` and routes by `split_dimension`
and `split_value` (the `index` and `data` members of an inner node are never read
again, so they are not kept). -/
inductive Node (n : Nat) (D : Type) where
  | leaf (index : index_t n) (data : D)
  | inner (split_dimension : Nat) (split_value : split_value_t) (left right : Node n D)
  deriving DecidableEq

variable {n : Nat} {D A : Type}

/-- Leaf test, `Node::is_leaf`. -/
def Node.is_leaf : Node n D → Bool
  | Node.leaf _ _ => true
  | Node.inner _ _ _ _ => false

/-- Routing rule, `Node::branch_left`: `index[split_dimension] < split_value`. -/
def branch_left (split_dimension : Nat) (split_value : split_value_t) (index : index_t n) :
    Bool :=
  decide (access split_dimension index < split_value)

/-- Absolute coordinate delta of `Node::split` at dimension `i`,
`std::abs(access(i, this->index) - access(i, index))`: the difference and its absolute
value are computed in the coordinate type. -/
def split_delta (this_index index : index_t n) (i : Nat) : split_value_t :=
  wrap |wrap (access i this_index - access i index)|

/-- One iteration of the loop of `Node::split` over the dimension `i`; the state is
`(max_delta, split_dimension)`. -/
def split_step (this_index index : index_t n) (s : split_value_t × Nat) (i : Nat) :
    split_value_t × Nat :=
  let delta := split_delta this_index index i
  if delta > s.1 then (delta, i) else s

/-- First block of `Node::split`: the loop over all dimensions starting from
`max_delta = 0` and the `split_dimension = 0` of a fresh node, then the midpoint: the sum
of the two coordinates, computed in the coordinate type, divided by `split_value_t(2)`.
Returns `(split_dimension, split_value)`. -/
def split_plane (this_index index : index_t n) : Nat × split_value_t :=
  let split_dimension := ((List.range n).foldl (split_step this_index index) (0, 0)).2
  (split_dimension,
    half (wrap (access split_dimension this_index + access split_dimension index)))

/-- Split of a leaf, `Node::split`: the leaf holding `this_index` and `this_data` becomes
an inner node with two fresh leaves; the old record moves to the side `branch_left` gives
for `this_index`, the other child takes `index`. That other child is the node `split`
returns; `new_data` is the record it holds once `insert` has merged into it. -/
def Node.split (this_index : index_t n) (this_data : D) (index : index_t n) (new_data : D) :
    Node n D :=
  let p := split_plane this_index index
  if branch_left p.1 p.2 this_index then
    Node.inner p.1 p.2 (Node.leaf this_index this_data) (Node.leaf index new_data)
  else
    Node.inner p.1 p.2 (Node.leaf index new_data) (Node.leaf this_index this_data)

/-- Non-empty branch of `KDTree::insert`: descend to a leaf, split it when its index
differs, then merge with the configured strategy. Returns the subtree after the call and
the record `insert` returns a reference to. -/
def Node.insert (ops : data_ops D A) (strategy : MergeStrategy) (index : index_t n) (args : A) :
    Node n D → Node n D × D
  | Node.inner d v l r =>
      if branch_left d v index then
        let res := Node.insert ops strategy index args l
        (Node.inner d v res.1 r, res.2)
      else
        let res := Node.insert ops strategy index args r
        (Node.inner d v l res.1, res.2)
  | Node.leaf idx data =>
      if idx ≠ index then
        let value := ops.merge strategy ops.init args
        (Node.split idx data index value, value)
      else
        let value := ops.merge strategy data args
        (Node.leaf idx value, value)

/-- Descent of `KDTree::get` below a non-null root. -/
def Node.get (index : index_t n) : Node n D → Option D
  | Node.inner d v l r => if branch_left d v index then Node.get index l else Node.get index r
  | Node.leaf idx data => if idx ≠ index then none else some data

/-- Private `KDTree::traverse(function, node)`: the calls `function(index, data)`, left
subtree first. -/
def Node.traverse : Node n D → List (index_t n × D)
  | Node.leaf idx data => [(idx, data)]
  | Node.inner _ _ l r => Node.traverse l ++ Node.traverse r

/-- Leaf indices of a subtree, in the order `traverse` visits them. -/
def Node.indices (t : Node n D) : List (index_t n) := t.traverse.map Prod.fst

/-- Number of leaves of a subtree. -/
def Node.leaves : Node n D → Nat
  | Node.leaf _ _ => 1
  | Node.inner _ _ l r => Node.leaves l + Node.leaves r

/-- Number of internal nodes of a subtree. -/
def Node.inners : Node n D → Nat
  | Node.leaf _ _ => 0
  | Node.inner _ _ l r => Node.inners l + Node.inners r + 1

/-- State of the k-d tree backend: the root pointer, `none` for `nullptr`. -/
structure KDTree (n : Nat) (D : Type) where
  root_ : Option (Node n D)
  deriving DecidableEq

/-- Newly created backend, `root_ = nullptr`. -/
def KDTree.empty : KDTree n D := ⟨none⟩

/-- Insertion, `KDTree::insert`: the backend after the call and the returned record. -/
def KDTree.insert (ops : data_ops D A) (strategy : MergeStrategy) (t : KDTree n D)
    (index : index_t n) (args : A) : KDTree n D × D :=
  match t.root_ with
  | none =>
      let value := ops.merge MergeStrategy.REPLACE ops.init args
      (⟨some (Node.leaf index value)⟩, value)
  | some root =>
      let res := Node.insert ops strategy index args root
      (⟨some res.1⟩, res.2)

/-- Lookup, `KDTree::get`: `none` is the null pointer. -/
def KDTree.get (t : KDTree n D) (index : index_t n) : Option D :=
  match t.root_ with
  | none => none
  | some root => Node.get index root

/-- Traversal, `KDTree::traverse`: the visitor calls in order. -/
def KDTree.traverse (t : KDTree n D) : List (index_t n × D) :=
  match t.root_ with
  | none => []
  | some root => Node.traverse root

/-- Leaves of the whole tree. -/
def KDTree.leaves (t : KDTree n D) : Nat :=
  match t.root_ with
  | none => 0
  | some root => Node.leaves root

/-- Internal nodes of the whole tree. -/
def KDTree.inners (t : KDTree n D) : Nat :=
  match t.root_ with
  | none => 0
  | some root => Node.inners root

/-- Replay of a sequence of `insert(index, args)` calls, first call first. -/
def KDTree.inserts (ops : data_ops D A) (strategy : MergeStrategy) (t : KDTree n D)
    (calls : List (index_t n × A)) : KDTree n D :=
  calls.foldl (fun s c => (KDTree.insert ops strategy s c.1 c.2).1) t

end kdtree

/-! ## The array backend (`array.hpp`) -/

namespace array

variable {n : Nat} {D A : Type}

/-- Value of `invalid_index_value`, `std::numeric_limits<std::size_t>::max()`. -/
def invalid_index_value : Nat := 2 ^ 64 - 1

/-- Conversion of a signed integer to `std::size_t`. -/
def to_size_t (x : Int) : Nat := (x % 2 ^ 64).toNat

/-- Conversion of a `std::size_t` value to the signed coordinate type: the two's
complement reading of the 64 bit word. -/
def of_size_t (x : Nat) : Int := if x < 2 ^ 63 then (x : Int) else (x : Int) - 2 ^ 64

/-- Ways a call can go wrong: the two `std::runtime_error`s the class throws, and an
access to a bit or slot that lies outside the bitmap or the buffer. -/
inductive Fault where
  /-- Thrown by `insert`: `Invalid index`. -/
  | invalid_index
  /-- Thrown by `set(array_size, ...)`: `Resize not allowed with active data`. -/
  | resize_with_active_data
  /-- Thrown by `set(array_offset, ...)`: `Offset change not allowed with active data`. -/
  | offset_change_with_active_data
  /-- Access at a position that is not below the length of `valid_` and `storage_`. -/
  | out_of_buffer
  deriving DecidableEq

deriving instance DecidableEq for Except

/-- Buffer length, `get_internal_size`: the product of the extents in `std::size_t`. -/
def get_internal_size (size_ : Fin n → Nat) : Nat :=
  (List.finRange n).foldl (fun size i => (size * size_ i) % 2 ^ 64) 1

/-- State of the array backend: extent `size_`, origin `offset_`, the record buffer
`storage_` and the validity bitmap `valid_`; both buffers have `get_internal_size()`
entries, as the member initialisers and `resize` establish. -/
structure Array (n : Nat) (D : Type) where
  size_ : Fin n → Nat
  offset_ : index_t n
  storage_ : List D
  valid_ : List Bool
  storage_length : storage_.length = get_internal_size size_
  valid_length : valid_.length = get_internal_size size_

/-- Body of the loop of `to_internal_index` from dimension list `dims` on, with the
running `internal_index`. The test `size_[i] - value <= 0` is evaluated in `std::size_t`,
as C++ converts `value` to the unsigned type. -/
def to_internal_index_from (size_ : Fin n → Nat) (offset_ index : index_t n) :
    List (Fin n) → Nat → Nat
  | [], internal_index => internal_index
  | i :: dims, internal_index =>
      let value := index i - offset_ i
      if value < 0 ∨ ((size_ i : Int) - value) % 2 ^ 64 ≤ 0 then
        invalid_index_value
      else
        to_internal_index_from size_ offset_ index dims
          ((internal_index * size_ i + to_size_t value) % 2 ^ 64)

/-- Flattening, `Array::to_internal_index`. -/
def Array.to_internal_index (a : Array n D) (index : index_t n) : Nat :=
  to_internal_index_from a.size_ a.offset_ index (List.finRange n) 0

/-- One iteration of the loop of `to_external_index` at dimension `ri`; the state is the
index under construction and the remaining `internal_index`. -/
def to_external_step (size_ : Fin n → Nat) (offset_ : index_t n) (s : index_t n × Nat)
    (ri : Fin n) : index_t n × Nat :=
  (Function.update s.1 ri (of_size_t ((s.2 % size_ ri + to_size_t (offset_ ri)) % 2 ^ 64)),
    s.2 / size_ ri)

/-- Unflattening, `Array::to_external_index`: the loop runs from the last dimension down
to the first. -/
def Array.to_external_index (a : Array n D) (internal_index : Nat) : index_t n :=
  ((List.finRange n).reverse.foldl (to_external_step a.size_ a.offset_)
    (fun _ => 0, internal_index)).1

/-- Fresh buffers for an extent and an origin: `new data_t[size]` and a cleared bitmap of
`size` bits, as in the member initialisers and in `resize`. -/
def Array.resize (ops : data_ops D A) (size_ : Fin n → Nat) (offset_ : index_t n) :
    Array n D where
  size_ := size_
  offset_ := offset_
  storage_ := List.replicate (get_internal_size size_) ops.init
  valid_ := List.replicate (get_internal_size size_) false
  storage_length := List.length_replicate _ _
  valid_length := List.length_replicate _ _

/-- Newly created backend with the configured `static_array_size` and
`static_array_offset`. -/
def Array.create (ops : data_ops D A) (static_array_size : Fin n → Nat)
    (static_array_offset : index_t n) : Array n D :=
  Array.resize ops static_array_size static_array_offset

/-- Insertion, `Array::insert`: the backend after the call, and the returned record or
the fault. `test_set` sets the bit and yields its previous value. -/
def Array.insert (ops : data_ops D A) (strategy : MergeStrategy) (a : Array n D)
    (index : index_t n) (args : A) : Array n D × Except Fault D :=
  let internal_index := a.to_internal_index index
  if internal_index = invalid_index_value then
    (a, Except.error Fault.invalid_index)
  else if h : internal_index < a.storage_.length ∧ internal_index < a.valid_.length then
    let value :=
      if !a.valid_.get ⟨internal_index, h.2⟩ then ops.create args
      else ops.merge strategy (a.storage_.get ⟨internal_index, h.1⟩) args
    ({ size_ := a.size_
       offset_ := a.offset_
       storage_ := a.storage_.set internal_index value
       valid_ := a.valid_.set internal_index true
       storage_length := by rw [List.length_set]; exact a.storage_length
       valid_length := by rw [List.length_set]; exact a.valid_length },
      Except.ok value)
  else
    (a, Except.error Fault.out_of_buffer)

/-- Lookup, `Array::get`: `none` is the null pointer. -/
def Array.get (a : Array n D) (index : index_t n) : Except Fault (Option D) :=
  let internal_index := a.to_internal_index index
  if internal_index = invalid_index_value then
    Except.ok none
  else if h : internal_index < a.storage_.length ∧ internal_index < a.valid_.length then
    if !a.valid_.get ⟨internal_index, h.2⟩ then Except.ok none
    else Except.ok (some (a.storage_.get ⟨internal_index, h.1⟩))
  else
    Except.error Fault.out_of_buffer

/-- Positions of the set bits in ascending order, the values `find_first` and
`find_next` run through. -/
def set_bits (valid_ : List Bool) : List (Fin valid_.length) :=
  (List.finRange valid_.length).filter fun i => valid_.get i

/-- Traversal, `Array::traverse`: the visitor calls in order. -/
def Array.traverse (a : Array n D) : List (index_t n × D) :=
  (set_bits a.valid_).map fun (i : Fin a.valid_.length) =>
    (a.to_external_index i.val,
      a.storage_.get ⟨i.val, by rw [a.storage_length, ← a.valid_length]; exact i.isLt⟩)

/-- Test `valid_.any()`: some validity bit is set. -/
def Array.any_valid (a : Array n D) : Bool := a.valid_.any id

/-- Reshape, `Array::set(array_size, ...)`. -/
def Array.set_array_size (ops : data_ops D A) (a : Array n D) (new_size : Fin n → Nat) :
    Array n D × Except Fault Unit :=
  if a.any_valid then
    (a, Except.error Fault.resize_with_active_data)
  else
    (Array.resize ops new_size a.offset_, Except.ok ())

/-- Move of the origin, `Array::set(array_offset, ...)`. -/
def Array.set_array_offset (a : Array n D) (new_offset : index_t n) :
    Array n D × Except Fault Unit :=
  if a.any_valid then
    (a, Except.error Fault.offset_change_with_active_data)
  else
    ({ a with offset_ := new_offset }, Except.ok ())

/-- Replay of a sequence of `insert(index, args)` calls, first call first; a call that
faults leaves the backend as it is and the replay goes on. -/
def Array.inserts (ops : data_ops D A) (strategy : MergeStrategy) (a : Array n D)
    (calls : List (index_t n × A)) : Array n D :=
  calls.foldl (fun s c => (Array.insert ops strategy s c.1 c.2).1) a

end array

/-! ## The hash map baseline (`unordered_map.hpp`) -/

namespace simple

variable {n : Nat} {D A : Type}

/-- Modelled from the spec: `Map` only instantiates `MapGeneric` with a
`std::unordered_map`, and `MapGeneric` is defined in `map_generic.hpp`, which is not among
the sources. It is a key to record table: the first insert of an index creates its
record, a later insert of the same index merges with the configured strategy, and the
iteration order is the order of first insertion. -/
structure Map (n : Nat) (D : Type) where
  storage_ : List (index_t n × D)

/-- Newly created table. -/
def Map.empty : Map n D := ⟨[]⟩

/-- Update of the entry list by one `insert(index, args)`. -/
def insert_entry (ops : data_ops D A) (strategy : MergeStrategy) (index : index_t n) (args : A) :
    List (index_t n × D) → List (index_t n × D)
  | [] => [(index, ops.create args)]
  | e :: rest =>
      if e.1 = index then (e.1, ops.merge strategy e.2 args) :: rest
      else e :: insert_entry ops strategy index args rest

/-- Insertion into the table. -/
def Map.insert (ops : data_ops D A) (strategy : MergeStrategy) (m : Map n D)
    (index : index_t n) (args : A) : Map n D :=
  ⟨insert_entry ops strategy index args m.storage_⟩

/-- Lookup in the table. -/
def Map.get (m : Map n D) (index : index_t n) : Option D :=
  (m.storage_.find? fun e => decide (e.1 = index)).map Prod.snd

/-- Traversal of the table: the visitor calls in order. -/
def Map.traverse (m : Map n D) : List (index_t n × D) := m.storage_

/-- Replay of a sequence of `insert(index, args)` calls, first call first. -/
def Map.inserts (ops : data_ops D A) (strategy : MergeStrategy) (m : Map n D)
    (calls : List (index_t n × A)) : Map n D :=
  calls.foldl (fun s c => Map.insert ops strategy s c.1 c.2) m

end simple

/-- Summing payload: the arguments are a number; `create` stores it, a `REPLACE` merge
overwrites the record with it and a `MERGE` merge adds it, so that merging into the
default constructed record 0 gives the same record as `create`. -/
def summing : data_ops Nat Nat where
  init := 0
  create := fun x => x
  merge := fun s d x =>
    match s with
    | MergeStrategy.REPLACE => x
    | MergeStrategy.MERGE => d + x

/-- One dimensional calls `insert(k)` of the counting payload. -/
def calls1 (ks : List Int) : List (index_t 1 × Unit) := ks.map fun k => (![k], ())

/-- Index that the spec calls invalid: some offset adjusted coordinate is negative or
not below the extent of its dimension. -/
def index_invalid {n : Nat} (extent : Fin n → Nat) (offset index : index_t n) : Prop :=
  ∃ i, index i - offset i < 0 ∨ index i - offset i ≥ extent i

instance {n : Nat} (extent : Fin n → Nat) (offset index : index_t n) :
    Decidable (index_invalid extent offset index) :=
  inferInstanceAs (Decidable (∃ i, index i - offset i < 0 ∨ index i - offset i ≥ extent i))

/-- The calls `insert(3, 1)`, `insert(4, 2)`, `insert(4, 5)` of the summing payload on one
dimensional indices. -/
def calls_3_4_4 : List (index_t 1 × Nat) := [(![3], 1), (![4], 2), (![4], 5)]

/-- Newly created two dimensional array backend of extent (2,2) and offset (0,0) with the
counting payload. -/
def array_2_2 : array.Array 2 Nat := array.Array.create counting ![2, 2] ![0, 0]

/-! ## Release of the tree and the routing rule -/

namespace kdtree

variable {n : Nat} {D A : Type}

/-- Backend object as `clear` leaves it. `KDTree::clear` deletes every node, the root
node included, and does not assign `root_`; after a call on a non-empty tree `root_`
still holds the address of the deleted root node. -/
inductive Object (n : Nat) (D : Type) where
  /-- Pointer `root_` is null or points to nodes the backend owns. -/
  | owned (t : KDTree n D)
  /-- Pointer `root_` is not null and the node it points to has been deleted. -/
  | dangling
  deriving DecidableEq

/-- Fault of a call on the object after `clear`. -/
inductive Fault where
  /-- Read or write through `root_` after the node it points to was deleted. -/
  | use_after_free
  deriving DecidableEq

/-- Release of all nodes, `KDTree::clear`: nothing happens on a null root; otherwise the
nodes below the root and the root are deleted and `root_` keeps its value. -/
def KDTree.clear (t : KDTree n D) : Object n D :=
  match t.root_ with
  | none => Object.owned t
  | some _ => Object.dangling

/-- Lookup `KDTree::get` on the object: with a dangling root the test `root_ == nullptr`
fails and the loop reads the deleted node. -/
def Object.get (o : Object n D) (index : index_t n) : Except Fault (Option D) :=
  match o with
  | Object.owned t => Except.ok (t.get index)
  | Object.dangling => Except.error Fault.use_after_free

/-- Traversal `KDTree::traverse` on the object. -/
def Object.traverse (o : Object n D) : Except Fault (List (index_t n × D)) :=
  match o with
  | Object.owned t => Except.ok t.traverse
  | Object.dangling => Except.error Fault.use_after_free

/-- Insertion `KDTree::insert` on the object. -/
def Object.insert (ops : data_ops D A) (strategy : MergeStrategy) (o : Object n D)
    (index : index_t n) (args : A) : Except Fault (KDTree n D × D) :=
  match o with
  | Object.owned t => Except.ok (KDTree.insert ops strategy t index args)
  | Object.dangling => Except.error Fault.use_after_free

/-- Routing invariant of a subtree: at every inner node the leaves of the left subtree
satisfy `branch_left` and the leaves of the right subtree do not. -/
def Node.routed : Node n D → Bool
  | Node.leaf _ _ => true
  | Node.inner d v l r =>
      l.indices.all (fun k => branch_left d v k) &&
      r.indices.all (fun k => !branch_left d v k) &&
      Node.routed l && Node.routed r

end kdtree

/-! ## Address arithmetic of the array backend -/

namespace array

variable {n : Nat}

/-- Index that the claims call valid: every offset adjusted coordinate lies in
`[0, extent[i])`. -/
def index_valid (extent : Fin n → Nat) (offset index : index_t n) : Prop :=
  ∀ i, 0 ≤ index i - offset i ∧ index i - offset i < extent i

instance (extent : Fin n → Nat) (offset index : index_t n) :
    Decidable (index_valid extent offset index) :=
  inferInstanceAs (Decidable (∀ i, 0 ≤ index i - offset i ∧ index i - offset i < extent i))

/-- Product of the extents of the dimensions in `dims`, without reduction. -/
def extent_product (extent : Fin n → Nat) (dims : List (Fin n)) : Nat :=
  (dims.map extent).prod

/-- Row-major value of the spec: the sum over `i` of `(coordinate[i] - offset[i])` times
the product of `extent[j]` over `j > i`. -/
def row_major (extent : Fin n → Nat) (offset index : index_t n) : Int :=
  ((List.finRange n).map fun i =>
    (index i - offset i) *
      (((List.finRange n).filter fun j => i < j).map fun j => (extent j : Int)).prod).sum

/-- Offset adjusted coordinate `index[i] - offset[i]` as a natural number. -/
def adjusted (offset index : index_t n) (i : Fin n) : Nat := (index i - offset i).toNat

/-- Flattening of the adjusted coordinates `v` along `dims` from the running value `acc`,
in exact arithmetic. -/
def flat (extent : Fin n → Nat) (v : Fin n → Nat) : List (Fin n) → Nat → Nat
  | [], acc => acc
  | i :: dims, acc => flat extent v dims (acc * extent i + v i)

/-- Strict lexicographic order of indices, dimension 0 most significant. -/
def lex_lt (x y : index_t n) : Prop :=
  ∃ k, (∀ j, j < k → x j = y j) ∧ x k < y k

instance (x y : index_t n) : Decidable (lex_lt x y) :=
  inferInstanceAs (Decidable (∃ k, (∀ j, j < k → x j = y j) ∧ x k < y k))

/-- Representable backend: every coordinate `offset[i] + c` with `0 ≤ c < extent[i]` lies
in the range of the signed 64 bit coordinate type. -/
def representable (extent : Fin n → Nat) (offset : index_t n) : Prop :=
  ∀ i, -2 ^ 63 ≤ offset i ∧ offset i + extent i ≤ 2 ^ 63

instance (extent : Fin n → Nat) (offset : index_t n) : Decidable (representable extent offset) :=
  inferInstanceAs (Decidable (∀ i, -2 ^ 63 ≤ offset i ∧ offset i + extent i ≤ 2 ^ 63))

/-- One dimensional array state of extent 2 whose origin is the largest signed 64 bit
value, with both records active. -/
def array_at_max : Array 1 Nat where
  size_ := ![2]
  offset_ := ![2 ^ 63 - 1]
  storage_ := [1, 1]
  valid_ := [true, true]
  storage_length := by decide
  valid_length := by decide

/-- Newly created two dimensional array backend of extent (2,2) and offset (0,0) with the
summing payload. -/
def array_2_2_sum : Array 2 Nat := Array.create summing ![2, 2] ![0, 0]

end array

/-! ## Theorems: the k-d tree backend -/

namespace kdtree

variable {n : Nat} {D A : Type}

set_option maxRecDepth 8192

theorem Node.split_leaves (a : index_t n) (d : D) (b : index_t n) (e : D) :
    (Node.split a d b e).leaves = 2 ∧ (Node.split a d b e).inners = 1 := by
  simp only [Node.split]
  split_ifs <;> simp [Node.leaves, Node.inners]

theorem Node.split_indices (a : index_t n) (d : D) (b : index_t n) (e : D) (k : index_t n)
    (hk : k ∈ (Node.split a d b e).indices) : k = b ∨ k = a := by
  simp only [Node.split] at hk
  split_ifs at hk <;> simp [Node.indices, Node.traverse] at hk <;> tauto

theorem Node.insert_indices (ops : data_ops D A) (s : MergeStrategy) (index : index_t n)
    (args : A) (t : Node n D) (k : index_t n)
    (hk : k ∈ (Node.insert ops s index args t).1.indices) : k = index ∨ k ∈ t.indices := by
  induction t with
  | leaf idx data =>
    simp only [Node.insert] at hk
    split_ifs at hk with h
    · rcases Node.split_indices _ _ _ _ _ hk with h1 | h1
      · exact Or.inl h1
      · right; simp [Node.indices, Node.traverse, h1]
    · right; simpa [Node.indices, Node.traverse] using hk
  | inner d v l r ihl ihr =>
    simp only [Node.insert] at hk
    split_ifs at hk with h
    · simp only [Node.indices, Node.traverse, List.map_append, List.mem_append] at hk ihl ⊢
      rcases hk with h1 | h1
      · rcases ihl h1 with h2 | h2
        · exact Or.inl h2
        · exact Or.inr (Or.inl h2)
      · exact Or.inr (Or.inr h1)
    · simp only [Node.indices, Node.traverse, List.map_append, List.mem_append] at hk ihr ⊢
      rcases hk with h1 | h1
      · exact Or.inr (Or.inl h1)
      · rcases ihr h1 with h2 | h2
        · exact Or.inl h2
        · exact Or.inr (Or.inr h2)

theorem Node.insert_fresh_count (ops : data_ops D A) (s : MergeStrategy) (index : index_t n)
    (args : A) (t : Node n D) (hfresh : index ∉ t.indices) :
    (Node.insert ops s index args t).1.leaves = t.leaves + 1 ∧
    (Node.insert ops s index args t).1.inners = t.inners + 1 := by
  induction t with
  | leaf idx data =>
    have hne : idx ≠ index := by
      intro h; apply hfresh; simp [Node.indices, Node.traverse, h]
    simp only [Node.insert]
    rw [if_pos hne]
    simpa [Node.leaves, Node.inners] using Node.split_leaves idx data index _
  | inner d v l r ihl ihr =>
    simp only [Node.indices, Node.traverse, List.map_append, List.mem_append, not_or] at hfresh ihl ihr
    simp only [Node.insert]
    split_ifs with h
    · have := ihl hfresh.1
      simp only [Node.leaves, Node.inners, this.1, this.2]; omega
    · have := ihr hfresh.2
      simp only [Node.leaves, Node.inners, this.1, this.2]; omega

theorem KDTree.inserts_fresh_count (ops : data_ops D A) (s : MergeStrategy)
    (calls : List (index_t n × A)) :
    ∀ root : Node n D, (∀ c ∈ calls, c.1 ∉ root.indices) → (calls.map Prod.fst).Nodup →
      ∃ r, (KDTree.inserts ops s ⟨some root⟩ calls).root_ = some r ∧
        r.leaves = root.leaves + calls.length ∧ r.inners = root.inners + calls.length := by
  induction calls with
  | nil => intro root _ _; exact ⟨root, rfl, by simp, by simp⟩
  | cons c rest ih =>
    intro root hfresh hnd
    rw [List.map_cons, List.nodup_cons] at hnd
    have hc : c.1 ∉ root.indices := hfresh c (List.mem_cons_self _ _)
    have hcount := Node.insert_fresh_count ops s c.1 c.2 root hc
    have hfresh2 : ∀ e ∈ rest, e.1 ∉ (Node.insert ops s c.1 c.2 root).1.indices := by
      intro e he hmem
      rcases Node.insert_indices ops s c.1 c.2 root e.1 hmem with h1 | h1
      · exact hnd.1 (h1 ▸ List.mem_map_of_mem Prod.fst he)
      · exact hfresh e (List.mem_cons_of_mem _ he) h1
    obtain ⟨r, hr, hl, hi⟩ := ih (Node.insert ops s c.1 c.2 root).1 hfresh2 hnd.2
    refine ⟨r, ?_, ?_, ?_⟩
    · simpa [KDTree.inserts, KDTree.insert] using hr
    · rw [hl, hcount.1, List.length_cons]; omega
    · rw [hi, hcount.2, List.length_cons]; omega

/-- C8: every sequence of `N ≥ 1` inserts with pairwise distinct indices into an empty k-d
tree leaves a tree with exactly `N` leaves and `N - 1` internal nodes. -/
theorem C8_leaf_count (ops : data_ops D A) (s : MergeStrategy) (calls : List (index_t n × A))
    (hN : 1 ≤ calls.length) (hdistinct : (calls.map Prod.fst).Nodup) :
    (KDTree.inserts ops s KDTree.empty calls).leaves = calls.length ∧
    (KDTree.inserts ops s KDTree.empty calls).inners = calls.length - 1 := by
  cases calls with
  | nil => simp at hN
  | cons c rest =>
    rw [List.map_cons, List.nodup_cons] at hdistinct
    have hfresh : ∀ e ∈ rest,
        e.1 ∉ (Node.leaf c.1 (ops.merge MergeStrategy.REPLACE ops.init c.2) : Node n D).indices := by
      intro e he hmem
      simp only [Node.indices, Node.traverse, List.map_cons, List.map_nil,
        List.mem_singleton] at hmem
      exact hdistinct.1 (hmem ▸ List.mem_map_of_mem Prod.fst he)
    obtain ⟨r, hr, hl, hi⟩ := KDTree.inserts_fresh_count ops s rest _ hfresh hdistinct.2
    have hstep : KDTree.inserts ops s KDTree.empty (c :: rest) =
        KDTree.inserts ops s ⟨some (Node.leaf c.1 (ops.merge MergeStrategy.REPLACE ops.init c.2))⟩
          rest := by
      simp [KDTree.inserts, KDTree.insert, KDTree.empty]
    rw [hstep]
    simp only [KDTree.leaves, KDTree.inners, hr, hl, hi, Node.leaves, Node.inners,
      List.length_cons]
    omega

/-- Witness of C8 at the three inserts 3, 4, 9. -/
theorem C8_leaf_count_witness :
    (KDTree.inserts counting MergeStrategy.MERGE KDTree.empty (calls1 [3, 4, 9])).leaves = 3 ∧
    (KDTree.inserts counting MergeStrategy.MERGE KDTree.empty (calls1 [3, 4, 9])).inners = 2 :=
  C8_leaf_count counting MergeStrategy.MERGE (calls1 [3, 4, 9]) (by decide) (by decide)

/-- C3 (failing input): after `insert(3)` and `insert(4)` into an empty one dimensional
k-d tree the split value is the truncated midpoint 3, both indices route to the right, the
new index 4 is stored in the left leaf, and `get(4)` returns absence although 4 was inserted;
`get(3)` finds its record. -/
theorem C3_get_misses_inserted_index :
    split_plane (![3] : index_t 1) ![4] = (0, 3) ∧
    (KDTree.inserts counting MergeStrategy.REPLACE KDTree.empty (calls1 [3, 4])).get ![4] = none ∧
    (KDTree.inserts counting MergeStrategy.REPLACE KDTree.empty (calls1 [3, 4])).get ![3] =
      some 1 := by
  decide

/-- C4 (failing input): after `insert(3)`, `insert(4)`, `insert(4)` into an empty one
dimensional k-d tree `traverse` visits the leaf indices 4, 4, 3: index 4 is visited twice,
so three pairs are visited for two distinct indices. -/
theorem C4_traverse_visits_index_twice :
    (KDTree.inserts counting MergeStrategy.REPLACE KDTree.empty
      (calls1 [3, 4, 4])).traverse.map Prod.fst = [![4], ![4], ![3]] ∧
    ¬ ((KDTree.inserts counting MergeStrategy.REPLACE KDTree.empty
      (calls1 [3, 4, 4])).traverse.map Prod.fst).Nodup := by
  decide

/-- C7 (failing input): inserting the distinct indices 3 and 4, in this order, gives one
internal node with split dimension 0 and split value 3 whose left leaf holds the larger
index 4 and whose right leaf holds the smaller index 3, and `get(4)` returns absence. -/
theorem C7_adjacent_indices_swap_sides :
    KDTree.inserts counting MergeStrategy.REPLACE KDTree.empty (calls1 [3, 4]) =
      ⟨some (Node.inner 0 3 (Node.leaf ![4] 1) (Node.leaf ![3] 1))⟩ ∧
    (KDTree.inserts counting MergeStrategy.REPLACE KDTree.empty (calls1 [3, 4])).get ![4] =
      none ∧
    KDTree.inserts counting MergeStrategy.REPLACE KDTree.empty (calls1 [3, 7]) =
      ⟨some (Node.inner 0 5 (Node.leaf ![3] 1) (Node.leaf ![7] 1))⟩ := by
  decide

/-- C10 (failing input): under `MERGE` with the counting payload, after `insert(3)`,
`insert(4)`, `insert(4)` the lookup `get(4)` returns absence instead of a record of count
2; the tree holds two separate leaves for index 4, each of count 1. Inserting only index 4
twice does give count 2. -/
theorem C10_merge_count_lost :
    (KDTree.inserts counting MergeStrategy.MERGE KDTree.empty (calls1 [3, 4, 4])).get ![4] =
      none ∧
    (KDTree.inserts counting MergeStrategy.MERGE KDTree.empty (calls1 [3, 4, 4])).traverse =
      [(![4], 1), (![4], 1), (![3], 1)] ∧
    (KDTree.inserts counting MergeStrategy.MERGE KDTree.empty (calls1 [4, 4])).get ![4] =
      some 2 := by
  decide

/-- C12 (failing input): after `insert(3)` the call `clear()` deletes the root node and
leaves `root_` pointing to it, which is not the empty state `root_ = nullptr`; `get`,
`traverse` and `insert` then go through the deleted node. Only on a backend that is
already empty does `clear()` give the empty state. -/
theorem C12_clear_leaves_dangling_root :
    KDTree.clear (KDTree.inserts counting MergeStrategy.REPLACE KDTree.empty (calls1 [3])) =
      Object.dangling ∧
    KDTree.clear (KDTree.inserts counting MergeStrategy.REPLACE KDTree.empty (calls1 [3])) ≠
      Object.owned KDTree.empty ∧
    (KDTree.clear (KDTree.inserts counting MergeStrategy.REPLACE KDTree.empty
      (calls1 [3]))).get ![3] = Except.error Fault.use_after_free ∧
    (KDTree.clear (KDTree.inserts counting MergeStrategy.REPLACE KDTree.empty
      (calls1 [3]))).traverse = Except.error Fault.use_after_free ∧
    Object.insert counting MergeStrategy.REPLACE
      (KDTree.clear (KDTree.inserts counting MergeStrategy.REPLACE KDTree.empty (calls1 [3])))
      ![5] () = Except.error Fault.use_after_free ∧
    KDTree.clear (KDTree.empty : KDTree 1 Nat) = Object.owned KDTree.empty := by
  decide

/-- C15 (failing input): after `insert(3)` and `insert(4)` the root is an inner node with
split dimension 0 and split value 3 whose left subtree holds the leaf 4, although
4 < 3 is false; neither 3 nor 4 satisfies `coordinate[0] < 3`, so it is not the case that
exactly one of them does, and the new index 4 is stored on the side it does not route
to. -/
theorem C15_left_subtree_holds_larger_index :
    (KDTree.inserts counting MergeStrategy.REPLACE KDTree.empty (calls1 [3, 4])).root_ =
      some (Node.inner 0 3 (Node.leaf ![4] 1) (Node.leaf ![3] 1)) ∧
    (Node.inner 0 3 (Node.leaf ![4] 1) (Node.leaf ![3] 1) : Node 1 Nat).routed = false ∧
    branch_left 0 3 (![3] : index_t 1) = false ∧
    branch_left 0 3 (![4] : index_t 1) = false := by
  decide

theorem Node.get_split (a : index_t n) (d : D) (b : index_t n) (e : D) (j : index_t n)
    (hjb : j ≠ b) : Node.get j (Node.split a d b e) = Node.get j (Node.leaf a d) := by
  simp only [Node.split]
  by_cases hja : a = j
  · subst hja
    split_ifs with h
    · simp [Node.get, h]
    · simp [Node.get, h]
  · have hb : ¬ b = j := fun h => hjb h.symm
    split_ifs with h <;> simp [Node.get, hja, hb]

theorem Node.get_insert_of_ne (ops : data_ops D A) (s : MergeStrategy) (k j : index_t n)
    (args : A) (hjk : j ≠ k) (t : Node n D) :
    Node.get j (Node.insert ops s k args t).1 = Node.get j t := by
  induction t with
  | leaf idx data =>
    simp only [Node.insert]
    split_ifs with h
    · exact Node.get_split idx data k _ j hjk
    · have hidx : idx = k := not_not.mp h
      have : ¬ idx = j := fun h2 => hjk (h2.symm.trans hidx)
      simp [Node.get, this]
  | inner d v l r ihl ihr =>
    simp only [Node.insert]
    split_ifs with h
    · simp only [Node.get, ihl]
    · simp only [Node.get, ihr]

/-- C17: on every k-d tree state, for every index `k` and every index `j` different from
`k`, `insert(k, args)` leaves the result of `get(j)` as it was: present exactly if it was
present, with the same record, also when the insert splits the leaf that holds `j`. -/
theorem C17_insert_frame (ops : data_ops D A) (s : MergeStrategy) (t : KDTree n D)
    (k j : index_t n) (args : A) (hjk : j ≠ k) :
    (KDTree.insert ops s t k args).1.get j = t.get j := by
  rcases t with ⟨_ | root⟩
  · have : ¬ k = j := fun h => hjk h.symm
    simp [KDTree.insert, KDTree.get, Node.get, this]
  · simpa [KDTree.insert, KDTree.get] using Node.get_insert_of_ne ops s k j args hjk root

/-- Witness of C17: in the tree holding 3 and 7, `insert(5)` splits the leaf of 7 and
`get(3)` still returns its record. -/
theorem C17_insert_frame_witness :
    (KDTree.insert counting MergeStrategy.MERGE
      (KDTree.inserts counting MergeStrategy.MERGE KDTree.empty (calls1 [3, 7])) ![5] ()).1.get
      ![3] =
    (KDTree.inserts counting MergeStrategy.MERGE KDTree.empty (calls1 [3, 7])).get ![3] :=
  C17_insert_frame counting MergeStrategy.MERGE
    (KDTree.inserts counting MergeStrategy.MERGE KDTree.empty (calls1 [3, 7])) ![5] ![3] ()
    (by decide)

end kdtree

/-! ## Theorems: the array backend -/

namespace array

variable {n : Nat} {D A : Type}

set_option maxRecDepth 8192

/-- C1 (failing input): with extent (2,2) and offset (0,0) the index (0,3) is invalid, but
`to_internal_index` maps it to 3, the slot of (1,1), and `insert` returns a record
instead of failing with `Invalid index`. The index (3,0) is invalid as well and is mapped
to position 6, outside the buffer of 4 slots. The index (2,0) is rejected. -/
theorem C1_insert_accepts_index_beyond_extent :
    index_invalid ![2, 2] ![0, 0] ![0, 3] ∧
    array_2_2.to_internal_index ![0, 3] = 3 ∧
    array_2_2.to_internal_index ![1, 1] = 3 ∧
    (Array.insert counting MergeStrategy.REPLACE array_2_2 ![0, 3] ()).2 = Except.ok 1 ∧
    (Array.insert counting MergeStrategy.REPLACE array_2_2 ![3, 0] ()).2 =
      Except.error Fault.out_of_buffer ∧
    (Array.insert counting MergeStrategy.REPLACE array_2_2 ![2, 0] ()).2 =
      Except.error Fault.invalid_index := by
  decide

/-- C2 (failing input): with extent (2,2) and offset (0,0) the invalid index (5,5) passes
the bounds test of `to_internal_index`, which returns 15; `get` then tests validity bit
15 of a bitmap of 4 bits, an access outside the buffer. -/
theorem C2_get_reads_outside_bitmap :
    index_invalid ![2, 2] ![0, 0] ![5, 5] ∧
    array_2_2.to_internal_index ![5, 5] = 15 ∧
    array_2_2.valid_.length = 4 ∧
    array_2_2.get ![5, 5] = Except.error Fault.out_of_buffer := by
  decide

/-- C5 (failing input): with extent (2,2) and offset (0,0), after the single successful
call `insert((0,3))` into the empty backend, `traverse` calls the visitor once, with the
index (1,1), which was never inserted, and not with (0,3). -/
theorem C5_traverse_reports_other_index :
    (Array.insert counting MergeStrategy.REPLACE array_2_2 ![0, 3] ()).2 = Except.ok 1 ∧
    (Array.insert counting MergeStrategy.REPLACE array_2_2 ![0, 3] ()).1.traverse =
      [(![1, 1], 1)] := by
  decide

theorem mem_any_valid (a : Array n D) : a.any_valid = true ↔ true ∈ a.valid_ := by
  simp [Array.any_valid, List.any_eq_true]

theorem insert_ok_sets_bit (ops : data_ops D A) (strategy : MergeStrategy) (a : Array n D)
    (index : index_t n) (args : A) (r : D)
    (hok : (Array.insert ops strategy a index args).2 = Except.ok r) :
    true ∈ (Array.insert ops strategy a index args).1.valid_ := by
  simp only [Array.insert] at hok ⊢
  by_cases h1 : a.to_internal_index index = invalid_index_value
  · simp [h1] at hok
  · by_cases h2 : a.to_internal_index index < a.storage_.length ∧
        a.to_internal_index index < a.valid_.length
    · simp only [h1, h2, if_false, and_self, dite_true]
      exact List.mem_iff_get.mpr
        ⟨⟨a.to_internal_index index, by rw [List.length_set]; exact h2.2⟩, by simp⟩
    · simp [h1, h2] at hok

/-- C9: `set(array_size, ...)` and `set(array_offset, ...)` throw exactly when some
validity bit is set; a call that throws leaves the whole state as it was; on a backend
without a set bit both succeed, the first installs the new extent and keeps the offset,
the second installs the new offset and keeps extent, records and bitmap; and after a
successful `insert` some validity bit is set. -/
theorem C9_reshape_guard (ops : data_ops D A) (strategy : MergeStrategy) (a : Array n D)
    (new_size : Fin n → Nat) (new_offset : index_t n) :
    ((Array.set_array_size ops a new_size).2 = Except.error Fault.resize_with_active_data ↔
      true ∈ a.valid_) ∧
    ((Array.set_array_offset a new_offset).2 =
      Except.error Fault.offset_change_with_active_data ↔ true ∈ a.valid_) ∧
    (true ∈ a.valid_ →
      (Array.set_array_size ops a new_size).1 = a ∧
      (Array.set_array_offset a new_offset).1 = a) ∧
    (true ∉ a.valid_ →
      (Array.set_array_size ops a new_size).2 = Except.ok () ∧
      (Array.set_array_size ops a new_size).1.size_ = new_size ∧
      (Array.set_array_size ops a new_size).1.offset_ = a.offset_ ∧
      (Array.set_array_offset a new_offset).2 = Except.ok () ∧
      (Array.set_array_offset a new_offset).1.offset_ = new_offset ∧
      (Array.set_array_offset a new_offset).1.size_ = a.size_ ∧
      (Array.set_array_offset a new_offset).1.storage_ = a.storage_ ∧
      (Array.set_array_offset a new_offset).1.valid_ = a.valid_) ∧
    (∀ (index : index_t n) (args : A) (r : D),
      (Array.insert ops strategy a index args).2 = Except.ok r →
      true ∈ (Array.insert ops strategy a index args).1.valid_) := by
  have hany := mem_any_valid a
  refine ⟨?_, ?_, ?_, ?_, ?_⟩
  · by_cases h : a.any_valid = true
    · simp [Array.set_array_size, h, ← hany]
    · simp [Array.set_array_size, h, ← hany]
  · by_cases h : a.any_valid = true
    · simp [Array.set_array_offset, h, ← hany]
    · simp [Array.set_array_offset, h, ← hany]
  · intro h
    rw [← hany] at h
    simp [Array.set_array_size, Array.set_array_offset, h]
  · intro h
    rw [← hany] at h
    simp [Array.set_array_size, Array.set_array_offset, h, Array.resize]
  · intro index args r hok
    exact insert_ok_sets_bit ops strategy a index args r hok

/-- Witness of C9: after `insert((1,1))` on the empty (2,2) backend a bit is set, and
`set(array_size, 3, 3)` leaves the state as it was. -/
theorem C9_reshape_guard_witness :
    true ∈ (Array.insert counting MergeStrategy.REPLACE array_2_2 ![1, 1] ()).1.valid_ ∧
    (Array.set_array_size counting
      (Array.insert counting MergeStrategy.REPLACE array_2_2 ![1, 1] ()).1 ![3, 3]).1 =
      (Array.insert counting MergeStrategy.REPLACE array_2_2 ![1, 1] ()).1 :=
  ⟨by decide,
    ((C9_reshape_guard counting MergeStrategy.REPLACE
      (Array.insert counting MergeStrategy.REPLACE array_2_2 ![1, 1] ()).1 ![3, 3]
      ![0, 0]).2.2.1 (by decide)).1⟩

theorem flat_add (extent : Fin n → Nat) (v : Fin n → Nat) (l : List (Fin n)) :
    ∀ acc, flat extent v l acc = acc * extent_product extent l + flat extent v l 0 := by
  induction l with
  | nil => intro acc; simp [flat, extent_product]
  | cons i l ih =>
    intro acc
    simp only [flat, extent_product, List.map_cons, List.prod_cons] at ih ⊢
    rw [ih (acc * extent i + v i), ih (0 * extent i + v i)]
    ring

theorem flat_bound (extent : Fin n → Nat) (v : Fin n → Nat) (l : List (Fin n))
    (hv : ∀ i ∈ l, v i < extent i) :
    ∀ acc, flat extent v l acc + 1 ≤ (acc + 1) * extent_product extent l := by
  induction l with
  | nil => intro acc; simp [flat, extent_product]
  | cons i l ih =>
    intro acc
    have hi := hv i (List.mem_cons_self _ _)
    have h1 := ih (fun j hj => hv j (List.mem_cons_of_mem _ hj)) (acc * extent i + v i)
    simp only [flat, extent_product, List.map_cons, List.prod_cons] at h1 ⊢
    calc flat extent v l (acc * extent i + v i) + 1
        ≤ (acc * extent i + v i + 1) * (List.map extent l).prod := h1
      _ ≤ ((acc + 1) * extent i) * (List.map extent l).prod := by
          apply Nat.mul_le_mul_right
          nlinarith
      _ = (acc + 1) * (extent i * (List.map extent l).prod) := by ring

theorem flat_congr (extent : Fin n → Nat) (v w : Fin n → Nat) (l : List (Fin n))
    (h : ∀ i ∈ l, v i = w i) : ∀ acc, flat extent v l acc = flat extent w l acc := by
  induction l with
  | nil => intro acc; rfl
  | cons i l ih =>
    intro acc
    simp only [flat]
    rw [h i (List.mem_cons_self _ _)]
    exact ih (fun j hj => h j (List.mem_cons_of_mem _ hj)) _

theorem extent_product_pos (extent : Fin n → Nat) (l : List (Fin n))
    (h : ∀ i ∈ l, 0 < extent i) : 0 < extent_product extent l := by
  induction l with
  | nil => simp [extent_product]
  | cons i l ih =>
    simp only [extent_product, List.map_cons, List.prod_cons]
    exact Nat.mul_pos (h i (List.mem_cons_self _ _))
      (ih (fun j hj => h j (List.mem_cons_of_mem _ hj)))

theorem pos_of_extent_product_pos (extent : Fin n → Nat) (l : List (Fin n))
    (h : 0 < extent_product extent l) : ∀ i ∈ l, 0 < extent i := by
  induction l with
  | nil => intro i hi; simp at hi
  | cons j l ih =>
    simp only [extent_product, List.map_cons, List.prod_cons] at h
    intro i hi
    rcases List.mem_cons.mp hi with h1 | h1
    · rw [h1]; exact Nat.pos_of_mul_pos_right h
    · exact ih (Nat.pos_of_mul_pos_left h) i h1

theorem to_internal_index_from_eq_flat (size_ : Fin n → Nat) (offset_ index : index_t n)
    (l : List (Fin n))
    (hv : ∀ i ∈ l, 0 ≤ index i - offset_ i ∧ index i - offset_ i < size_ i) :
    ∀ acc, (acc + 1) * extent_product size_ l < 2 ^ 64 →
      to_internal_index_from size_ offset_ index l acc =
        flat size_ (adjusted offset_ index) l acc := by
  induction l with
  | nil => intro acc _; rfl
  | cons i l ih =>
    intro acc hacc
    have hi := hv i (List.mem_cons_self _ _)
    have hl : ∀ j ∈ l, 0 ≤ index j - offset_ j ∧ index j - offset_ j < size_ j :=
      fun j hj => hv j (List.mem_cons_of_mem _ hj)
    have hpos : 0 < extent_product size_ l :=
      extent_product_pos size_ l (fun j hj => by have := hl j hj; omega)
    simp only [extent_product, List.map_cons, List.prod_cons] at hacc hpos
    have hstep : (acc * size_ i + adjusted offset_ index i + 1) * (List.map size_ l).prod
        < 2 ^ 64 := by
      have hadj : adjusted offset_ index i + 1 ≤ size_ i := by
        simp only [adjusted]; omega
      calc (acc * size_ i + adjusted offset_ index i + 1) * (List.map size_ l).prod
          ≤ ((acc + 1) * size_ i) * (List.map size_ l).prod := by
            apply Nat.mul_le_mul_right; nlinarith
        _ = (acc + 1) * (size_ i * (List.map size_ l).prod) := by ring
        _ < 2 ^ 64 := hacc
    have hsmall : acc * size_ i + adjusted offset_ index i + 1 < 2 ^ 64 :=
      lt_of_le_of_lt (Nat.le_mul_of_pos_right _ hpos) hstep
    have hsize : size_ i < 2 ^ 64 := by
      have : size_ i ≤ (acc + 1) * (size_ i * (List.map size_ l).prod) := by
        calc size_ i ≤ size_ i * (List.map size_ l).prod := Nat.le_mul_of_pos_right _ hpos
          _ ≤ (acc + 1) * (size_ i * (List.map size_ l).prod) := Nat.le_mul_of_pos_left _ (by omega)
      omega
    have hcond : ¬ (index i - offset_ i < 0 ∨ ((size_ i : Int) - (index i - offset_ i)) % 2 ^ 64 ≤ 0) := by
      have h2 : (2 : Int) ^ 64 = 18446744073709551616 := by norm_num
      have h3 : (2 : Nat) ^ 64 = 18446744073709551616 := by norm_num
      rw [h2]; rw [h3] at hsize
      omega
    have hacc2 : (acc * size_ i + to_size_t (index i - offset_ i)) % 2 ^ 64 =
        acc * size_ i + adjusted offset_ index i := by
      have hto : to_size_t (index i - offset_ i) = adjusted offset_ index i := by
        simp only [to_size_t, adjusted]
        have h2 : (2 : Int) ^ 64 = 18446744073709551616 := by norm_num
        have h3 : (2 : Nat) ^ 64 = 18446744073709551616 := by norm_num
        rw [h2]; rw [h3] at hsize
        omega
      rw [hto]
      exact Nat.mod_eq_of_lt (by omega)
    simp only [to_internal_index_from, flat]
    rw [if_neg hcond, hacc2]
    exact ih hl _ (by simpa [extent_product] using hstep)

theorem get_internal_size_fold (size_ : Fin n → Nat) (l : List (Fin n)) :
    ∀ init, l.foldl (fun size i => (size * size_ i) % 2 ^ 64) (init % 2 ^ 64) =
      (init * extent_product size_ l) % 2 ^ 64 := by
  induction l with
  | nil => intro init; simp [extent_product]
  | cons i l ih =>
    intro init
    simp only [List.foldl_cons, extent_product, List.map_cons, List.prod_cons]
    rw [Nat.mod_mul_mod, ih (init * size_ i)]
    simp only [extent_product]
    rw [Nat.mul_assoc]

theorem get_internal_size_eq (size_ : Fin n → Nat) :
    get_internal_size size_ = extent_product size_ (List.finRange n) % 2 ^ 64 := by
  have := get_internal_size_fold size_ (List.finRange n) 1
  simpa [get_internal_size] using this

theorem flat_eq_sum (extent : Fin n → Nat) (v : Fin n → Nat) (l : List (Fin n))
    (hl : l.Pairwise (· < ·)) :
    flat extent v l 0 =
      (l.map fun i => v i * ((l.filter fun j => i < j).map extent).prod).sum := by
  induction l with
  | nil => rfl
  | cons i l ih =>
    rw [List.pairwise_cons] at hl
    have hfi : (i :: l).filter (fun j => i < j) = l := by
      rw [List.filter_cons_of_neg (by simp)]
      exact List.filter_eq_self.mpr (fun j hj => by simpa using hl.1 j hj)
    have hrest : (l.map fun k => v k * (((i :: l).filter fun j => k < j).map extent).prod) =
        (l.map fun k => v k * ((l.filter fun j => k < j).map extent).prod) := by
      apply List.map_congr_left
      intro k hk
      have : ¬ (k < i) := not_lt.mpr (le_of_lt (hl.1 k hk))
      rw [List.filter_cons_of_neg (by simpa using this)]
    simp only [flat, List.map_cons, List.sum_cons]
    rw [hfi, hrest, ← ih hl.2, flat_add extent v l (0 * extent i + v i)]
    simp [extent_product]

theorem row_major_eq_flat (extent : Fin n → Nat) (offset index : index_t n)
    (hvalid : index_valid extent offset index) :
    row_major extent offset index =
      (flat extent (adjusted offset index) (List.finRange n) 0 : Nat) := by
  rw [flat_eq_sum extent _ _ (List.pairwise_lt_finRange n), Nat.cast_list_sum, List.map_map]
  simp only [row_major]
  congr 1
  apply List.map_congr_left
  intro i _
  simp only [Function.comp, Nat.cast_mul, Nat.cast_list_prod, List.map_map, adjusted]
  rw [Int.toNat_of_nonneg (hvalid i).1]
  rfl

/-- C13 (counterexample): with extent (2^31, 2^31, 2^31) and offset (0,0,0) the index
(4,0,0) is valid and its row-major value is 2^64, but `to_internal_index` computes in
`std::size_t` and returns 0; the buffer length is 0 as well, so the returned value is not
below it. -/
theorem C13_counterexample_wraparound :
    index_valid ![2 ^ 31, 2 ^ 31, 2 ^ 31] ![0, 0, 0] ![4, 0, 0] ∧
    row_major ![2 ^ 31, 2 ^ 31, 2 ^ 31] ![0, 0, 0] ![4, 0, 0] = 2 ^ 64 ∧
    (Array.create counting ![2 ^ 31, 2 ^ 31, 2 ^ 31] ![0, 0, 0]).to_internal_index ![4, 0, 0] =
      0 ∧
    (Array.create counting ![2 ^ 31, 2 ^ 31, 2 ^ 31] ![0, 0, 0]).valid_.length = 0 ∧
    ¬ (((Array.create counting ![2 ^ 31, 2 ^ 31, 2 ^ 31] ![0, 0, 0]).to_internal_index
          ![4, 0, 0] : Int) = row_major ![2 ^ 31, 2 ^ 31, 2 ^ 31] ![0, 0, 0] ![4, 0, 0] ∧
        (Array.create counting ![2 ^ 31, 2 ^ 31, 2 ^ 31] ![0, 0, 0]).to_internal_index
          ![4, 0, 0] <
          (Array.create counting ![2 ^ 31, 2 ^ 31, 2 ^ 31] ![0, 0, 0]).valid_.length) := by
  decide

/-- C13 (amended): for every array backend whose product of extents is below 2^64 and
every valid index, `to_internal_index` returns exactly the row-major value, the sum over
`i` of `(c[i] - offset[i])` times the product of `extent[j]` for `j > i`, and this value
is strictly less than the product of all extents, which is the length of the record
buffer and of the bitmap. -/
theorem C13_address_mapping (a : Array n D) (index : index_t n)
    (hprod : extent_product a.size_ (List.finRange n) < 2 ^ 64)
    (hvalid : index_valid a.size_ a.offset_ index) :
    (a.to_internal_index index : Int) = row_major a.size_ a.offset_ index ∧
    a.to_internal_index index < extent_product a.size_ (List.finRange n) ∧
    a.storage_.length = extent_product a.size_ (List.finRange n) ∧
    a.valid_.length = extent_product a.size_ (List.finRange n) := by
  have hsize : get_internal_size a.size_ = extent_product a.size_ (List.finRange n) := by
    rw [get_internal_size_eq, Nat.mod_eq_of_lt hprod]
  have hflat : a.to_internal_index index =
      flat a.size_ (adjusted a.offset_ index) (List.finRange n) 0 :=
    to_internal_index_from_eq_flat a.size_ a.offset_ index (List.finRange n)
      (fun i _ => hvalid i) 0 (by simpa using hprod)
  have hbound := flat_bound a.size_ (adjusted a.offset_ index) (List.finRange n)
    (fun i _ => by have := hvalid i; simp only [adjusted]; omega) 0
  refine ⟨?_, ?_, ?_, ?_⟩
  · rw [hflat, row_major_eq_flat a.size_ a.offset_ index hvalid]
  · rw [hflat]; omega
  · rw [a.storage_length, hsize]
  · rw [a.valid_length, hsize]

/-- Witness of C13: extent (2,3), offset (-1,5): the valid index (0,7) has row-major
value 1 * 3 + 2 = 5, below the buffer length 6. -/
theorem C13_address_mapping_witness :
    ((Array.create counting ![2, 3] ![-1, 5]).to_internal_index ![0, 7] : Int) =
      row_major ![2, 3] ![-1, 5] ![0, 7] ∧
    (Array.create counting ![2, 3] ![-1, 5]).to_internal_index ![0, 7] <
      extent_product ![2, 3] (List.finRange 2) ∧
    (Array.create counting ![2, 3] ![-1, 5]).storage_.length =
      extent_product ![2, 3] (List.finRange 2) ∧
    (Array.create counting ![2, 3] ![-1, 5]).valid_.length =
      extent_product ![2, 3] (List.finRange 2) :=
  C13_address_mapping (Array.create counting ![2, 3] ![-1, 5]) ![0, 7] (by decide) (by decide)

theorem of_size_t_add (o : Int) (d : Nat) (h1 : -2 ^ 63 ≤ o + d) (h2 : o + d < 2 ^ 63)
    (h3 : -2 ^ 63 ≤ o) (h4 : o < 2 ^ 63) :
    of_size_t ((d + to_size_t o) % 2 ^ 64) = o + d := by
  simp only [of_size_t, to_size_t]
  have e1 : (2 : Int) ^ 64 = 18446744073709551616 := by norm_num
  have e2 : (2 : Nat) ^ 64 = 18446744073709551616 := by norm_num
  have e3 : (2 : Int) ^ 63 = 9223372036854775808 := by norm_num
  have e4 : (2 : Nat) ^ 63 = 9223372036854775808 := by norm_num
  rw [e3] at h1 h2 h3 h4
  rw [e1, e2, e4]
  split_ifs with h <;> omega

theorem to_external_step_fst (size_ : Fin n → Nat) (offset_ : index_t n) (st : index_t n × Nat)
    (ri : Fin n) :
    (to_external_step size_ offset_ st ri).1 =
      Function.update st.1 ri
        (of_size_t ((st.2 % size_ ri + to_size_t (offset_ ri)) % 2 ^ 64)) := rfl

theorem to_external_step_snd (size_ : Fin n → Nat) (offset_ : index_t n) (st : index_t n × Nat)
    (ri : Fin n) : (to_external_step size_ offset_ st ri).2 = st.2 / size_ ri := rfl

theorem to_external_fold_snd (size_ : Fin n → Nat) (offset_ : index_t n) (l : List (Fin n))
    (f0 : index_t n) (m : Nat) :
    (l.foldr (fun ri s => to_external_step size_ offset_ s ri) (f0, m)).2 =
      m / extent_product size_ l := by
  induction l with
  | nil => simp [extent_product]
  | cons i l ih =>
    rw [List.foldr_cons, to_external_step_snd, ih]
    simp only [extent_product, List.map_cons, List.prod_cons]
    rw [Nat.div_div_eq_div_mul, Nat.mul_comm]

theorem to_external_fold_fst_of_not_mem (size_ : Fin n → Nat) (offset_ : index_t n)
    (l : List (Fin n)) (f0 : index_t n) (m : Nat) (k : Fin n) (hk : k ∉ l) :
    (l.foldr (fun ri s => to_external_step size_ offset_ s ri) (f0, m)).1 k = f0 k := by
  induction l with
  | nil => rfl
  | cons i l ih =>
    simp only [List.mem_cons, not_or] at hk
    rw [List.foldr_cons, to_external_step_fst, Function.update_noteq hk.1]
    exact ih hk.2

/-- Unflattening after flattening, along any list of dimensions. -/
theorem to_external_fold_flat (size_ : Fin n → Nat) (offset_ index : index_t n)
    (hrep : representable size_ offset_) (l : List (Fin n))
    (hv : ∀ i ∈ l, 0 ≤ index i - offset_ i ∧ index i - offset_ i < size_ i) :
    ∀ (acc : Nat) (f0 : index_t n),
      l.foldr (fun ri s => to_external_step size_ offset_ s ri)
        (f0, flat size_ (adjusted offset_ index) l acc) =
      (fun k => if k ∈ l then index k else f0 k, acc) := by
  induction l with
  | nil => intro acc f0; simp [flat]
  | cons i l ih =>
    intro acc f0
    have hi := hv i (List.mem_cons_self _ _)
    have hl : ∀ j ∈ l, 0 ≤ index j - offset_ j ∧ index j - offset_ j < size_ j :=
      fun j hj => hv j (List.mem_cons_of_mem _ hj)
    have hadj : (adjusted offset_ index i : Int) = index i - offset_ i := by
      simp only [adjusted]; exact Int.toNat_of_nonneg hi.1
    have hlt : adjusted offset_ index i < size_ i := by
      have := hi.2; rw [← hadj] at this; exact_mod_cast this
    simp only [List.foldr_cons, flat]
    rw [ih hl (acc * size_ i + adjusted offset_ index i) f0]
    simp only [to_external_step]
    have hmod : (acc * size_ i + adjusted offset_ index i) % size_ i =
        adjusted offset_ index i := by
      rw [Nat.add_comm, Nat.add_mul_mod_self_right]
      exact Nat.mod_eq_of_lt hlt
    have hdiv : (acc * size_ i + adjusted offset_ index i) / size_ i = acc := by
      rw [Nat.add_comm, Nat.add_mul_div_right _ _ (by omega), Nat.div_eq_of_lt hlt]
      simp
    have hcoord : of_size_t ((adjusted offset_ index i + to_size_t (offset_ i)) % 2 ^ 64) =
        index i := by
      have hr := hrep i
      rw [of_size_t_add (offset_ i) (adjusted offset_ index i) (by omega) (by omega) hr.1
        (by omega)]
      omega
    rw [hmod, hdiv, hcoord]
    congr 1
    funext k
    by_cases hk : k = i
    · subst hk; simp
    · rw [Function.update_noteq hk]
      simp [hk]

/-- Flattening after unflattening, along a duplicate free list of dimensions. -/
theorem flat_to_external_fold (size_ : Fin n → Nat) (offset_ : index_t n)
    (hrep : representable size_ offset_) (l : List (Fin n)) (hnd : l.Nodup)
    (hpos : ∀ i ∈ l, 0 < size_ i) (f0 : index_t n) (m : Nat) :
    (∀ i ∈ l,
      0 ≤ (l.foldr (fun ri s => to_external_step size_ offset_ s ri) (f0, m)).1 i - offset_ i ∧
      (l.foldr (fun ri s => to_external_step size_ offset_ s ri) (f0, m)).1 i - offset_ i <
        size_ i) ∧
    ∀ acc, flat size_
      (adjusted offset_ (l.foldr (fun ri s => to_external_step size_ offset_ s ri) (f0, m)).1)
      l acc = acc * extent_product size_ l + m % extent_product size_ l := by
  induction l with
  | nil => simp [flat, extent_product, Nat.mod_one]
  | cons i l ih =>
    rw [List.nodup_cons] at hnd
    have hposi := hpos i (List.mem_cons_self _ _)
    obtain ⟨ihv, ihf⟩ := ih hnd.2 (fun j hj => hpos j (List.mem_cons_of_mem _ hj))
    have hr := hrep i
    have hsnd := to_external_fold_snd size_ offset_ l f0 m
    have hdig : m / extent_product size_ l % size_ i < size_ i := Nat.mod_lt _ hposi
    have hcoord : of_size_t ((m / extent_product size_ l % size_ i + to_size_t (offset_ i)) %
        2 ^ 64) = offset_ i + (m / extent_product size_ l % size_ i : Nat) :=
      of_size_t_add (offset_ i) _ (by omega) (by omega) hr.1 (by omega)
    have hfst : ∀ k, (List.foldr (fun ri s => to_external_step size_ offset_ s ri) (f0, m)
        (i :: l)).1 k =
        if k = i then offset_ i + (m / extent_product size_ l % size_ i : Nat)
        else (l.foldr (fun ri s => to_external_step size_ offset_ s ri) (f0, m)).1 k := by
      intro k
      rw [List.foldr_cons, to_external_step_fst, hsnd, hcoord, Function.update_apply]
    have hne : ∀ j ∈ l, j ≠ i := fun j hj h => hnd.1 (h ▸ hj)
    refine ⟨?_, ?_⟩
    · intro k hk
      rw [hfst k]
      rcases List.mem_cons.mp hk with h | h
      · subst h
        simp only [if_true]
        omega
      · rw [if_neg (hne k h)]
        exact ihv k h
    · intro acc
      have hadj_i : adjusted offset_ (List.foldr (fun ri s => to_external_step size_ offset_ s ri)
          (f0, m) (i :: l)).1 i = m / extent_product size_ l % size_ i := by
        simp only [adjusted]
        rw [hfst i, if_pos rfl]
        generalize m / extent_product size_ l % size_ i = d
        omega
      have hcongr : ∀ j ∈ l,
          adjusted offset_ (List.foldr (fun ri s => to_external_step size_ offset_ s ri)
            (f0, m) (i :: l)).1 j =
          adjusted offset_ (l.foldr (fun ri s => to_external_step size_ offset_ s ri)
            (f0, m)).1 j := by
        intro j hj
        simp only [adjusted]
        rw [hfst j, if_neg (hne j hj)]
      simp only [flat]
      rw [flat_congr size_ _ _ l hcongr, ihf, hadj_i]
      simp only [extent_product, List.map_cons, List.prod_cons]
      rw [Nat.mul_comm (size_ i) (List.map size_ l).prod, Nat.mod_mul]
      ring

theorem to_external_index_eq_foldr (a : Array n D) (m : Nat) :
    a.to_external_index m =
      ((List.finRange n).foldr (fun ri s => to_external_step a.size_ a.offset_ s ri)
        (fun _ => 0, m)).1 := by
  simp only [Array.to_external_index, List.foldl_reverse]

theorem to_internal_index_eq_flat (a : Array n D) (index : index_t n)
    (hprod : extent_product a.size_ (List.finRange n) < 2 ^ 64)
    (hvalid : index_valid a.size_ a.offset_ index) :
    a.to_internal_index index =
      flat a.size_ (adjusted a.offset_ index) (List.finRange n) 0 :=
  to_internal_index_from_eq_flat a.size_ a.offset_ index (List.finRange n)
    (fun i _ => hvalid i) 0 (by simpa using hprod)

theorem to_external_to_internal (a : Array n D) (index : index_t n)
    (hprod : extent_product a.size_ (List.finRange n) < 2 ^ 64)
    (hrep : representable a.size_ a.offset_)
    (hvalid : index_valid a.size_ a.offset_ index) :
    a.to_external_index (a.to_internal_index index) = index := by
  rw [to_internal_index_eq_flat a index hprod hvalid, to_external_index_eq_foldr,
    to_external_fold_flat a.size_ a.offset_ index hrep (List.finRange n) (fun i _ => hvalid i)]
  funext k
  simp [List.mem_finRange]

theorem to_external_index_valid (a : Array n D) (m : Nat)
    (hrep : representable a.size_ a.offset_)
    (hm : m < extent_product a.size_ (List.finRange n)) :
    index_valid a.size_ a.offset_ (a.to_external_index m) ∧
    flat a.size_ (adjusted a.offset_ (a.to_external_index m)) (List.finRange n) 0 = m := by
  have hpos := pos_of_extent_product_pos a.size_ (List.finRange n) (by omega)
  obtain ⟨h1, h2⟩ := flat_to_external_fold a.size_ a.offset_ hrep (List.finRange n)
    (List.nodup_finRange n) hpos (fun _ => 0) m
  rw [← to_external_index_eq_foldr] at h1 h2
  refine ⟨fun i => h1 i (List.mem_finRange i), ?_⟩
  rw [h2 0, Nat.mod_eq_of_lt hm]
  simp

/-- C19 (counterexample): with the positive extents (2^31, 2^31, 2^31) and offset (0,0,0)
the valid index (4,0,0) is flattened to 0 and unflattened to (0,0,0); and with extent (2)
and offset (2^63 - 1) the position 1, below the product 2, is unflattened to the
coordinate -2^63, which is not a valid index. -/
theorem C19_counterexample_wraparound :
    (∀ i, 0 < (![2 ^ 31, 2 ^ 31, 2 ^ 31] : Fin 3 → Nat) i) ∧
    index_valid ![2 ^ 31, 2 ^ 31, 2 ^ 31] ![0, 0, 0] ![4, 0, 0] ∧
    (Array.create counting ![2 ^ 31, 2 ^ 31, 2 ^ 31] ![0, 0, 0]).to_external_index
      ((Array.create counting ![2 ^ 31, 2 ^ 31, 2 ^ 31] ![0, 0, 0]).to_internal_index
        ![4, 0, 0]) = ![0, 0, 0] ∧
    (Array.create counting ![2 ^ 31, 2 ^ 31, 2 ^ 31] ![0, 0, 0]).to_external_index
      ((Array.create counting ![2 ^ 31, 2 ^ 31, 2 ^ 31] ![0, 0, 0]).to_internal_index
        ![4, 0, 0]) ≠ ![4, 0, 0] ∧
    1 < extent_product ![2] (List.finRange 1) ∧
    (Array.create counting ![2] ![2 ^ 63 - 1]).to_external_index 1 = ![-2 ^ 63] ∧
    ¬ index_valid ![2] ![2 ^ 63 - 1]
      ((Array.create counting ![2] ![2 ^ 63 - 1]).to_external_index 1) := by
  decide

/-- C19 (amended): for every array backend whose product of extents is below 2^64 and
whose in-bounds coordinates all lie in the signed 64 bit range: unflattening the flattened
value of a valid index gives the index back; every position below the product of the
extents unflattens to a valid index that flattens to this position; hence
`to_internal_index` is injective on valid indices. -/
theorem C19_index_round_trip (a : Array n D)
    (hprod : extent_product a.size_ (List.finRange n) < 2 ^ 64)
    (hrep : representable a.size_ a.offset_) :
    (∀ idx, index_valid a.size_ a.offset_ idx →
      a.to_external_index (a.to_internal_index idx) = idx) ∧
    (∀ m, m < extent_product a.size_ (List.finRange n) →
      index_valid a.size_ a.offset_ (a.to_external_index m) ∧
      a.to_internal_index (a.to_external_index m) = m) ∧
    (∀ idx idx', index_valid a.size_ a.offset_ idx → index_valid a.size_ a.offset_ idx' →
      a.to_internal_index idx = a.to_internal_index idx' → idx = idx') := by
  refine ⟨fun idx h => to_external_to_internal a idx hprod hrep h, ?_, ?_⟩
  · intro m hm
    obtain ⟨h1, h2⟩ := to_external_index_valid a m hrep hm
    exact ⟨h1, by rw [to_internal_index_eq_flat a _ hprod h1, h2]⟩
  · intro idx idx' h h' heq
    rw [← to_external_to_internal a idx hprod hrep h,
      ← to_external_to_internal a idx' hprod hrep h', heq]

/-- Witness of C19: extent (2,3), offset (-1,5), the valid index (0,7) and the
position 4. -/
theorem C19_index_round_trip_witness :
    (Array.create counting ![2, 3] ![-1, 5]).to_external_index
      ((Array.create counting ![2, 3] ![-1, 5]).to_internal_index ![0, 7]) = ![0, 7] ∧
    index_valid ![2, 3] ![-1, 5] ((Array.create counting ![2, 3] ![-1, 5]).to_external_index 4) ∧
    (Array.create counting ![2, 3] ![-1, 5]).to_internal_index
      ((Array.create counting ![2, 3] ![-1, 5]).to_external_index 4) = 4 :=
  ⟨(C19_index_round_trip (Array.create counting ![2, 3] ![-1, 5]) (by decide) (by decide)).1
      ![0, 7] (by decide),
    (C19_index_round_trip (Array.create counting ![2, 3] ![-1, 5]) (by decide) (by decide)).2.1
      4 (by decide)⟩

theorem flat_lt_of_lex (extent : Fin n → Nat) (v w : Fin n → Nat) (l : List (Fin n))
    (hl : l.Pairwise (· < ·)) (hv : ∀ i ∈ l, v i < extent i) (k : Fin n) (hk : k ∈ l)
    (heq : ∀ j ∈ l, j < k → v j = w j) (hlt : v k < w k) :
    ∀ acc, flat extent v l acc < flat extent w l acc := by
  induction l with
  | nil => simp at hk
  | cons i l ih =>
    intro acc
    rw [List.pairwise_cons] at hl
    have hvl : ∀ j ∈ l, v j < extent j := fun j hj => hv j (List.mem_cons_of_mem _ hj)
    simp only [flat]
    rcases List.mem_cons.mp hk with h | h
    · subst h
      have h1 := flat_bound extent v l hvl (acc * extent k + v k)
      have h2 := flat_add extent w l (acc * extent k + w k)
      have h3 : (acc * extent k + v k + 1) * extent_product extent l ≤
          (acc * extent k + w k) * extent_product extent l :=
        Nat.mul_le_mul_right _ (by omega)
      omega
    · have hik : i < k := hl.1 k h
      rw [heq i (List.mem_cons_self _ _) hik]
      exact ih hl.2 hvl h (fun j hj hjk => heq j (List.mem_cons_of_mem _ hj) hjk) _

theorem lex_trichotomy (x y : index_t n) : lex_lt x y ∨ x = y ∨ lex_lt y x := by
  by_cases hxy : x = y
  · exact Or.inr (Or.inl hxy)
  · have hex : ∃ m, ∃ h : m < n, x ⟨m, h⟩ ≠ y ⟨m, h⟩ := by
      by_contra hno
      push_neg at hno
      exact hxy (funext fun i => hno i.val i.isLt)
    classical
    obtain ⟨hm, hne⟩ := Nat.find_spec hex
    have hmin : ∀ j : Fin n, j.val < Nat.find hex → x j = y j := by
      intro j hj
      by_contra hc
      exact Nat.find_min hex hj ⟨j.isLt, hc⟩
    rcases lt_or_gt_of_ne hne with h | h
    · exact Or.inl ⟨⟨_, hm⟩, fun j hj => hmin j hj, h⟩
    · exact Or.inr (Or.inr ⟨⟨_, hm⟩, fun j hj => (hmin j hj).symm, h⟩)

theorem flat_lt_of_lex_lt (extent : Fin n → Nat) (offset x y : index_t n)
    (hx : index_valid extent offset x) (hy : index_valid extent offset y) (h : lex_lt x y) :
    flat extent (adjusted offset x) (List.finRange n) 0 <
      flat extent (adjusted offset y) (List.finRange n) 0 := by
  obtain ⟨k, hk1, hk2⟩ := h
  apply flat_lt_of_lex extent _ _ _ (List.pairwise_lt_finRange n) _ k (List.mem_finRange k)
  · intro j _ hjk
    simp only [adjusted, hk1 j hjk]
  · have := hx k; have := hy k
    simp only [adjusted]; omega
  · intro i _
    have := hx i
    simp only [adjusted]; omega

theorem lex_lt_iff_lt (a : Array n D) (hrep : representable a.size_ a.offset_) (p q : Nat)
    (hp : p < extent_product a.size_ (List.finRange n))
    (hq : q < extent_product a.size_ (List.finRange n)) :
    p < q ↔ lex_lt (a.to_external_index p) (a.to_external_index q) := by
  obtain ⟨hvp, hfp⟩ := to_external_index_valid a p hrep hp
  obtain ⟨hvq, hfq⟩ := to_external_index_valid a q hrep hq
  constructor
  · intro hpq
    rcases lex_trichotomy (a.to_external_index p) (a.to_external_index q) with h | h | h
    · exact h
    · rw [h, hfq] at hfp; omega
    · have := flat_lt_of_lex_lt a.size_ a.offset_ _ _ hvq hvp h
      rw [hfp, hfq] at this; omega
  · intro h
    have := flat_lt_of_lex_lt a.size_ a.offset_ _ _ hvp hvq h
    rw [hfp, hfq] at this; exact this

theorem valid_length_le (a : Array n D) :
    a.valid_.length ≤ extent_product a.size_ (List.finRange n) := by
  rw [a.valid_length, get_internal_size_eq]
  exact Nat.mod_le _ _

theorem set_bits_pairwise (valid_ : List Bool) : (set_bits valid_).Pairwise (· < ·) :=
  List.Pairwise.filter _ (List.pairwise_lt_finRange _)

theorem mem_set_bits (valid_ : List Bool) (i : Fin valid_.length) :
    i ∈ set_bits valid_ ↔ valid_.get i = true := by
  simp [set_bits, List.mem_filter, List.mem_finRange]

theorem traverse_indices (a : Array n D) :
    a.traverse.map Prod.fst =
      ((set_bits a.valid_).map Fin.val).map a.to_external_index := by
  simp [Array.traverse, List.map_map, Function.comp]

/-- C14 (amended): on every array state whose in-bounds coordinates all lie in the signed
64 bit range, `traverse` visits the set positions of the bitmap in strictly ascending
internal-index order, passing the unflattened index of each; on the positions of the
buffer ascending internal order is the same as ascending lexicographic order of the
unflattened coordinates, dimension 0 most significant; so the visited indices are in
strictly ascending lexicographic order. -/
theorem C14_traverse_order (a : Array n D) (hrep : representable a.size_ a.offset_) :
    (∃ positions : List Nat,
      positions.Pairwise (· < ·) ∧
      (∀ p, p ∈ positions ↔ ∃ h : p < a.valid_.length, a.valid_.get ⟨p, h⟩ = true) ∧
      a.traverse.map Prod.fst = positions.map a.to_external_index) ∧
    (∀ p q, p < a.valid_.length → q < a.valid_.length →
      (p < q ↔ lex_lt (a.to_external_index p) (a.to_external_index q))) ∧
    (a.traverse.map Prod.fst).Pairwise lex_lt := by
  have hiff : ∀ p q, p < a.valid_.length → q < a.valid_.length →
      (p < q ↔ lex_lt (a.to_external_index p) (a.to_external_index q)) :=
    fun p q hp hq => lex_lt_iff_lt a hrep p q
      (lt_of_lt_of_le hp (valid_length_le a)) (lt_of_lt_of_le hq (valid_length_le a))
  refine ⟨⟨(set_bits a.valid_).map Fin.val, ?_, ?_, traverse_indices a⟩, hiff, ?_⟩
  · rw [List.pairwise_map]
    exact set_bits_pairwise a.valid_
  · intro p
    constructor
    · intro hp
      obtain ⟨i, hi, rfl⟩ := List.mem_map.mp hp
      exact ⟨i.isLt, (mem_set_bits a.valid_ i).mp hi⟩
    · rintro ⟨h, hbit⟩
      exact List.mem_map.mpr ⟨⟨p, h⟩, (mem_set_bits a.valid_ ⟨p, h⟩).mpr hbit, rfl⟩
  · rw [traverse_indices, List.map_map, List.pairwise_map]
    exact (set_bits_pairwise a.valid_).imp
      (fun {i j} hij => (hiff i.val j.val i.isLt j.isLt).mp hij)

/-- C14 (counterexample): in the one dimensional state of extent 2 and offset 2^63 - 1
with both bits set, `traverse` visits position 0 and then position 1, and passes the
coordinates 2^63 - 1 and then -2^63, which is not ascending. The same happens in a state
the code reaches: extent (2,2), offset (2^63 - 1, 0), after `insert((2^63 - 1, 0))` and
`insert((2^63 - 1, 3))` the visited indices are (2^63 - 1, 0) and then (-2^63, 1). -/
theorem C14_counterexample_offset_at_max :
    array_at_max.traverse.map Prod.fst = [![2 ^ 63 - 1], ![-2 ^ 63]] ∧
    ¬ (array_at_max.traverse.map Prod.fst).Pairwise lex_lt ∧
    ((Array.inserts counting MergeStrategy.REPLACE
      (Array.create counting ![2, 2] ![2 ^ 63 - 1, 0])
      [(![2 ^ 63 - 1, 0], ()), (![2 ^ 63 - 1, 3], ())]).traverse.map Prod.fst =
      [![2 ^ 63 - 1, 0], ![-2 ^ 63, 1]]) ∧
    ¬ ((Array.inserts counting MergeStrategy.REPLACE
      (Array.create counting ![2, 2] ![2 ^ 63 - 1, 0])
      [(![2 ^ 63 - 1, 0], ()), (![2 ^ 63 - 1, 3], ())]).traverse.map Prod.fst).Pairwise
      lex_lt := by
  decide

/-- Witness of C14: after `insert((1,1))` and `insert((0,1))` on the empty backend of
extent (2,2) and offset (0,0) the visited indices are in ascending lexicographic order. -/
theorem C14_traverse_order_witness :
    ((Array.inserts counting MergeStrategy.REPLACE array_2_2
      [(![1, 1], ()), (![0, 1], ())]).traverse.map Prod.fst).Pairwise lex_lt :=
  (C14_traverse_order
    (Array.inserts counting MergeStrategy.REPLACE array_2_2 [(![1, 1], ()), (![0, 1], ())])
    (by decide)).2.2

/-- C11 (failing input): extent (2,2), offset (0,0), `REPLACE`, summing payload (`create`
stores its argument). The calls `insert((1,1), 7)` and `insert((0,3), 9)` both succeed;
the second one lands in the slot of (1,1), so `get((1,1))` returns the record 9 and not
`create(7)`, the record of the last insert at (1,1). -/
theorem C11_other_index_overwrites_record :
    (Array.insert summing MergeStrategy.REPLACE array_2_2_sum ![1, 1] 7).2 = Except.ok 7 ∧
    (Array.insert summing MergeStrategy.REPLACE
      (Array.insert summing MergeStrategy.REPLACE array_2_2_sum ![1, 1] 7).1 ![0, 3] 9).2 =
      Except.ok 9 ∧
    (Array.inserts summing MergeStrategy.REPLACE array_2_2_sum
      [(![1, 1], 7), (![0, 3], 9)]).get ![1, 1] = Except.ok (some 9) ∧
    summing.create 7 = 7 := by
  decide

/-- C18 (failing input): extent (2,2), offset (0,0). After the single successful call
`insert((0,3))` the lookup `get((1,1))` returns a record, although (1,1) is in bounds and
does not occur in the sequence. -/
theorem C18_get_finds_index_never_inserted :
    (Array.insert counting MergeStrategy.REPLACE array_2_2 ![0, 3] ()).2 = Except.ok 1 ∧
    index_valid ![2, 2] ![0, 0] ![1, 1] ∧
    array_2_2.get ![1, 1] = Except.ok none ∧
    (Array.inserts counting MergeStrategy.REPLACE array_2_2 [(![0, 3], ())]).get ![1, 1] =
      Except.ok (some 1) := by
  decide

/-- C20 (failing input): extent (2,2), offset (0,0), `MERGE`, summing payload, in the
state after `insert((1,1), 7)`. The call `insert(k = (0,3), 9)` succeeds and changes the
result of `get(j)` for `j = (1,1)`, which differs from `k`, from the record 7 to the
record 16. -/
theorem C20_insert_changes_other_index :
    (![1, 1] : index_t 2) ≠ ![0, 3] ∧
    (Array.insert summing MergeStrategy.MERGE
      (Array.insert summing MergeStrategy.MERGE array_2_2_sum ![1, 1] 7).1 ![0, 3] 9).2 =
      Except.ok 16 ∧
    (Array.insert summing MergeStrategy.MERGE array_2_2_sum ![1, 1] 7).1.get ![1, 1] =
      Except.ok (some 7) ∧
    (Array.insert summing MergeStrategy.MERGE
      (Array.insert summing MergeStrategy.MERGE array_2_2_sum ![1, 1] 7).1 ![0, 3] 9).1.get
      ![1, 1] = Except.ok (some 16) := by
  decide

end array

/-! ## Theorems: the backends against each other -/

section equivalence

set_option maxRecDepth 8192

/-- C6 (failing input): replaying `insert(3, 1)`, `insert(4, 2)`, `insert(4, 5)` with the
summing payload on an array backend of extent 5 and offset 0, on the reference map and on
an empty k-d tree. Under `MERGE` array and map both hold (3,1) and (4,7) and under
`REPLACE` the array holds (3,1) and (4,5), while the k-d tree holds the three pairs
(4,2), (4,5), (3,1) under either strategy. -/
theorem C6_kdtree_differs_from_array :
    (array.Array.inserts summing MergeStrategy.MERGE (array.Array.create summing ![5] ![0])
      calls_3_4_4).traverse = [(![3], 1), (![4], 7)] ∧
    (simple.Map.inserts summing MergeStrategy.MERGE simple.Map.empty calls_3_4_4).traverse =
      [(![3], 1), (![4], 7)] ∧
    (kdtree.KDTree.inserts summing MergeStrategy.MERGE kdtree.KDTree.empty
      calls_3_4_4).traverse = [(![4], 2), (![4], 5), (![3], 1)] ∧
    (array.Array.inserts summing MergeStrategy.REPLACE (array.Array.create summing ![5] ![0])
      calls_3_4_4).traverse = [(![3], 1), (![4], 5)] ∧
    (simple.Map.inserts summing MergeStrategy.REPLACE simple.Map.empty calls_3_4_4).traverse =
      [(![3], 1), (![4], 5)] ∧
    (kdtree.KDTree.inserts summing MergeStrategy.REPLACE kdtree.KDTree.empty
      calls_3_4_4).traverse = [(![4], 2), (![4], 5), (![3], 1)] := by
  decide

end equivalence

end cslibs_clustering
